import Mathlib

/-!
Shallow embedding of the bounded, expiring, FIFO-evicting key/value cache
(`src/5_sync/main.go`).  The Go map `m : map[string]Entry` is modelled as an
association list with unique keys (unique by construction from the empty map),
the insertion-order slice `keys : []string` as a `List String`, and instants
(`time.Time`) and durations (`time.Duration`) as integers.  `time.Now()` is
passed in explicitly as a `now` parameter to each time-dependent operation.
The out-of-bounds access `c.keys[0]` in the eviction branch of `Set` (a Go
panic when the slice is empty) is modelled by returning `none`.
-/

namespace SyncCache

/-- One cached value together with its absolute expiration instant
(Go struct `Entry`). -/
structure Entry (α : Type) where
  value : α
  expiration : Int
deriving DecidableEq

/-- The cache state (Go struct `Cache`): fixed capacity `size`, fixed `ttl`,
the store `m`, and the insertion-order ledger `keys`.  The mutex field has no
counterpart: the embedding is sequential. -/
structure Cache (α : Type) where
  size : Int
  ttl : Int
  m : List (String × Entry α)
  keys : List String
deriving DecidableEq

instance {ε σ : Type} [DecidableEq ε] [DecidableEq σ] : DecidableEq (Except ε σ) :=
  fun x y =>
  match x, y with
  | .ok a, .ok b =>
    if h : a = b then isTrue (by rw [h]) else isFalse (fun hh => h (Except.ok.inj hh))
  | .error a, .error b =>
    if h : a = b then isTrue (by rw [h]) else isFalse (fun hh => h (Except.error.inj hh))
  | .ok _, .error _ => isFalse (fun hh => Except.noConfusion hh)
  | .error _, .ok _ => isFalse (fun hh => Except.noConfusion hh)

/-- Go map read `m[key]`: the value at `key`, if present. -/
def mapLookup {α : Type} (m : List (String × Entry α)) (key : String) : Option (Entry α) :=
  (m.find? (fun p => p.1 == key)).map Prod.snd

/-- Go map `delete(m, key)`. -/
def mapErase {α : Type} (m : List (String × Entry α)) (key : String) : List (String × Entry α) :=
  m.filter (fun p => p.1 != key)

/-- Go map write `m[key] = e`: replace in place when `key` is present,
append otherwise. -/
def mapInsert {α : Type} (m : List (String × Entry α)) (key : String) (e : Entry α) :
    List (String × Entry α) :=
  if m.any (fun p => p.1 == key) then
    m.map (fun p => if p.1 == key then (key, e) else p)
  else m ++ [(key, e)]

/-- The error message produced by `New` for a non-positive size. -/
def invalidCapacity : String := "size must be positive"

/-- The error message produced by `New` for a non-positive ttl. -/
def invalidTTL : String := "ttl must be positive"

/-- Go `New(size, ttl)`: validates both parameters and returns an empty
cache. -/
def New (α : Type) (size ttl : Int) : Except String (Cache α) :=
  if size ≤ 0 then .error invalidCapacity
  else if ttl ≤ 0 then .error invalidTTL
  else .ok { size := size, ttl := ttl, m := [], keys := [] }

/-- Go `(*Cache).removeKey`: splice the first occurrence of `key` out of the
order ledger (no change when absent). -/
def removeKey (keys : List String) (key : String) : List String :=
  match keys with
  | [] => []
  | k :: rest => if k == key then rest else k :: removeKey rest key

/-- Go `(*Cache).Get`: returns `(value, found)` and the post-state.  A present
entry with `time.Since(expiration) > 0` (strictly past its expiration) is
removed from both the store and the ledger, and reported not found. -/
def Cache.Get {α : Type} (c : Cache α) (key : String) (now : Int) :
    Option α × Bool × Cache α :=
  match mapLookup c.m key with
  | none => (none, false, c)
  | some entry =>
    if now - entry.expiration > 0 then
      (none, false, { c with m := mapErase c.m key, keys := removeKey c.keys key })
    else
      (some entry.value, true, c)

/-- Go `(*Cache).Set`: refresh in place when the key is present; otherwise,
when the store is full, evict the entry at the head of the ledger first, then
insert at the tail.  `none` models the Go panic on `c.keys[0]` when the
ledger is empty in the eviction branch. -/
def Cache.Set {α : Type} (c : Cache α) (key : String) (value : α) (now : Int) :
    Option (Cache α) :=
  if (mapLookup c.m key).isSome then
    some { c with m := mapInsert c.m key ⟨value, now + c.ttl⟩ }
  else if (c.m.length : Int) ≥ c.size then
    match c.keys with
    | [] => none
    | oldest :: rest =>
      some { c with
        m := mapInsert (mapErase c.m oldest) key ⟨value, now + c.ttl⟩,
        keys := rest ++ [key] }
  else
    some { c with
      m := mapInsert c.m key ⟨value, now + c.ttl⟩,
      keys := c.keys ++ [key] }

/-- Go `(*Cache).Keys`: the ledger filtered to keys currently present in the
store, preserving ledger (insertion) order.  No expiration check and no
mutation. -/
def Cache.Keys {α : Type} (c : Cache α) : List String :=
  c.keys.filter (fun k => (mapLookup c.m k).isSome)

/-- One public cache operation, with its call arguments and the instant at
which it runs. -/
inductive Op (α : Type) where
  | set (key : String) (value : α) (now : Int)
  | get (key : String) (now : Int)
  | keys
deriving DecidableEq

/-- Run one operation, keeping only the post-state (`Keys` and a `Get` hit do
not mutate). -/
def Cache.runOp {α : Type} (c : Cache α) : Op α → Option (Cache α)
  | .set k v now => c.Set k v now
  | .get k now => some (c.Get k now).2.2
  | .keys => some c

/-- Run a sequence of operations from a state. -/
def Cache.runOps {α : Type} (c : Cache α) : List (Op α) → Option (Cache α)
  | [] => some c
  | op :: rest =>
    match c.runOp op with
    | none => none
    | some c2 => c2.runOps rest

/-- Well-formedness of a cache state: positive capacity, the ledger is
exactly the store's key sequence, without duplicates, and the store is within
capacity.  Established by `New` and preserved by every operation. -/
def WF {α : Type} (c : Cache α) : Prop :=
  0 < c.size ∧ c.keys = c.m.map Prod.fst ∧ c.keys.Nodup ∧ (c.m.length : Int) ≤ c.size

instance {α : Type} (c : Cache α) : Decidable (WF c) :=
  inferInstanceAs (Decidable (0 < c.size ∧ c.keys = c.m.map Prod.fst ∧
    c.keys.Nodup ∧ (c.m.length : Int) ≤ c.size))

/-! ### Association-list lemmas -/

variable {α : Type}

theorem mapLookup_cons (p : String × Entry α) (rest : List (String × Entry α)) (k : String) :
    mapLookup (p :: rest) k = if p.1 = k then some p.2 else mapLookup rest k := by
  by_cases h : p.1 = k
  · rw [if_pos h]
    unfold mapLookup
    rw [List.find?_cons_of_pos _ (by simpa using h)]
    rfl
  · rw [if_neg h]
    unfold mapLookup
    rw [List.find?_cons_of_neg _ (by simpa using h)]

theorem mapErase_cons (p : String × Entry α) (rest : List (String × Entry α)) (k : String) :
    mapErase (p :: rest) k = if p.1 = k then mapErase rest k else p :: mapErase rest k := by
  by_cases h : p.1 = k
  · rw [if_pos h]
    unfold mapErase
    rw [List.filter_cons_of_neg (by simp [h])]
  · rw [if_neg h]
    unfold mapErase
    rw [List.filter_cons_of_pos (by simp [h])]

theorem removeKey_cons (x : String) (rest : List String) (k : String) :
    removeKey (x :: rest) k = if x = k then rest else x :: removeKey rest k := by
  by_cases h : x = k <;> simp [removeKey, h]

theorem mapLookup_eq_none_iff (m : List (String × Entry α)) (k : String) :
    mapLookup m k = none ↔ k ∉ m.map Prod.fst := by
  induction m with
  | nil => simp [mapLookup]
  | cons p rest ih =>
    rw [mapLookup_cons]
    by_cases h : p.1 = k
    · simp [h]
    · simp [h, Ne.symm h, ih]

theorem mapLookup_isSome_iff (m : List (String × Entry α)) (k : String) :
    (mapLookup m k).isSome = true ↔ k ∈ m.map Prod.fst := by
  rcases ho : mapLookup m k with _ | e
  · simpa using (mapLookup_eq_none_iff m k).mp ho
  · simp only [Option.isSome_some, true_iff]
    by_contra hmem
    rw [(mapLookup_eq_none_iff m k).mpr hmem] at ho
    exact Option.noConfusion ho

theorem any_key_iff (m : List (String × Entry α)) (k : String) :
    (m.any fun p => p.1 == k) = true ↔ k ∈ m.map Prod.fst := by
  simp only [List.any_eq_true, List.mem_map, beq_iff_eq]

theorem mapInsert_of_not_mem (m : List (String × Entry α)) (k : String) (e : Entry α)
    (h : k ∉ m.map Prod.fst) : mapInsert m k e = m ++ [(k, e)] := by
  unfold mapInsert
  rw [if_neg (by rw [any_key_iff]; exact h)]

theorem mapInsert_of_mem (m : List (String × Entry α)) (k : String) (e : Entry α)
    (h : k ∈ m.map Prod.fst) :
    mapInsert m k e = m.map (fun p => if p.1 = k then (k, e) else p) := by
  unfold mapInsert
  rw [if_pos ((any_key_iff m k).mpr h)]
  refine List.map_congr_left (fun p _ => ?_)
  by_cases hp : p.1 = k <;> simp [hp]

theorem mapLookup_map_replace_ne (m : List (String × Entry α)) (k j : String) (e : Entry α)
    (h : j ≠ k) :
    mapLookup (m.map (fun p => if p.1 = k then (k, e) else p)) j = mapLookup m j := by
  induction m with
  | nil => rfl
  | cons p rest ih =>
    rw [List.map_cons]
    by_cases hp : p.1 = k
    · rw [if_pos hp, mapLookup_cons, mapLookup_cons, if_neg (Ne.symm h),
        if_neg (hp ▸ fun hh => h hh.symm), ih]
    · rw [if_neg hp, mapLookup_cons, mapLookup_cons]
      by_cases hpj : p.1 = j
      · rw [if_pos hpj, if_pos hpj]
      · rw [if_neg hpj, if_neg hpj, ih]

theorem mapLookup_map_replace_self (m : List (String × Entry α)) (k : String) (e : Entry α)
    (h : k ∈ m.map Prod.fst) :
    mapLookup (m.map (fun p => if p.1 = k then (k, e) else p)) k = some e := by
  induction m with
  | nil => simp at h
  | cons p rest ih =>
    rw [List.map_cons]
    by_cases hp : p.1 = k
    · rw [if_pos hp, mapLookup_cons, if_pos rfl]
    · rw [if_neg hp, mapLookup_cons, if_neg hp]
      refine ih ?_
      rw [List.map_cons] at h
      rcases List.mem_cons.mp h with h2 | h2
      · exact absurd h2.symm hp
      · exact h2

theorem mapLookup_append_single_ne (m : List (String × Entry α)) (k j : String) (e : Entry α)
    (h : j ≠ k) : mapLookup (m ++ [(k, e)]) j = mapLookup m j := by
  induction m with
  | nil => simp [mapLookup_cons, mapLookup, Ne.symm h]
  | cons p rest ih =>
    rw [List.cons_append, mapLookup_cons, mapLookup_cons]
    by_cases hpj : p.1 = j
    · rw [if_pos hpj, if_pos hpj]
    · rw [if_neg hpj, if_neg hpj, ih]

theorem mapLookup_append_single_self (m : List (String × Entry α)) (k : String) (e : Entry α)
    (h : k ∉ m.map Prod.fst) : mapLookup (m ++ [(k, e)]) k = some e := by
  induction m with
  | nil => simp [mapLookup_cons]
  | cons p rest ih =>
    simp only [List.map_cons, List.mem_cons, not_or] at h
    rw [List.cons_append, mapLookup_cons, if_neg (fun hh => h.1 hh.symm)]
    exact ih h.2

theorem mapLookup_mapInsert_self (m : List (String × Entry α)) (k : String) (e : Entry α) :
    mapLookup (mapInsert m k e) k = some e := by
  by_cases h : k ∈ m.map Prod.fst
  · rw [mapInsert_of_mem m k e h]
    exact mapLookup_map_replace_self m k e h
  · rw [mapInsert_of_not_mem m k e h]
    exact mapLookup_append_single_self m k e h

theorem mapLookup_mapInsert_ne (m : List (String × Entry α)) (k j : String) (e : Entry α)
    (h : j ≠ k) : mapLookup (mapInsert m k e) j = mapLookup m j := by
  by_cases hm : k ∈ m.map Prod.fst
  · rw [mapInsert_of_mem m k e hm]
    exact mapLookup_map_replace_ne m k j e h
  · rw [mapInsert_of_not_mem m k e hm]
    exact mapLookup_append_single_ne m k j e h

theorem mapInsert_map_fst_of_mem (m : List (String × Entry α)) (k : String) (e : Entry α)
    (h : k ∈ m.map Prod.fst) : (mapInsert m k e).map Prod.fst = m.map Prod.fst := by
  rw [mapInsert_of_mem m k e h, List.map_map]
  refine List.map_congr_left ?_
  intro p _
  by_cases hp : p.1 = k <;> simp [hp]

theorem mapInsert_length_of_mem (m : List (String × Entry α)) (k : String) (e : Entry α)
    (h : k ∈ m.map Prod.fst) : (mapInsert m k e).length = m.length := by
  have h2 := congrArg List.length (mapInsert_map_fst_of_mem m k e h)
  simpa using h2

theorem mapErase_map_fst (m : List (String × Entry α)) (k : String) :
    (mapErase m k).map Prod.fst = (m.map Prod.fst).filter (fun x => x != k) := by
  induction m with
  | nil => rfl
  | cons p rest ih =>
    rw [mapErase_cons]
    by_cases hp : p.1 = k
    · rw [if_pos hp, List.map_cons, List.filter_cons_of_neg (by simp [hp]), ih]
    · rw [if_neg hp, List.map_cons, List.map_cons,
        List.filter_cons_of_pos (by simp [hp]), ih]

theorem mapLookup_mapErase_self (m : List (String × Entry α)) (k : String) :
    mapLookup (mapErase m k) k = none := by
  rw [mapLookup_eq_none_iff, mapErase_map_fst]
  simp

theorem mapLookup_mapErase_ne (m : List (String × Entry α)) (k j : String)
    (h : j ≠ k) : mapLookup (mapErase m k) j = mapLookup m j := by
  induction m with
  | nil => rfl
  | cons p rest ih =>
    rw [mapErase_cons]
    by_cases hp : p.1 = k
    · rw [if_pos hp, mapLookup_cons, if_neg (hp ▸ fun hh => h hh.symm), ih]
    · rw [if_neg hp, mapLookup_cons, mapLookup_cons]
      by_cases hpj : p.1 = j
      · rw [if_pos hpj, if_pos hpj]
      · rw [if_neg hpj, if_neg hpj, ih]

theorem filter_ne_of_not_mem (l : List String) (k : String) (h : k ∉ l) :
    l.filter (fun x => x != k) = l := by
  induction l with
  | nil => rfl
  | cons x rest ih =>
    simp only [List.mem_cons, not_or] at h
    rw [List.filter_cons_of_pos (by simp; exact Ne.symm h.1), ih h.2]

theorem removeKey_eq_filter (keys : List String) (k : String) (h : keys.Nodup) :
    removeKey keys k = keys.filter (fun x => x != k) := by
  induction keys with
  | nil => rfl
  | cons x rest ih =>
    rcases List.nodup_cons.mp h with ⟨hx, hrest⟩
    rw [removeKey_cons]
    by_cases hxk : x = k
    · rw [if_pos hxk, List.filter_cons_of_neg (by simp [hxk]),
        filter_ne_of_not_mem rest k (hxk ▸ hx)]
    · rw [if_neg hxk, List.filter_cons_of_pos (by simp [hxk]), ih hrest]

theorem mapErase_length_le (m : List (String × Entry α)) (k : String) :
    (mapErase m k).length ≤ m.length :=
  List.length_filter_le _ m

/-! ### Branch characterizations of the operations -/

theorem Set_present (c : Cache α) (k : String) (v : α) (now : Int) (e0 : Entry α)
    (hl : mapLookup c.m k = some e0) :
    c.Set k v now = some { c with m := mapInsert c.m k ⟨v, now + c.ttl⟩ } := by
  unfold Cache.Set
  rw [hl]
  rfl

theorem Set_absent_notfull (c : Cache α) (k : String) (v : α) (now : Int)
    (hl : mapLookup c.m k = none) (hlen : (c.m.length : Int) < c.size) :
    c.Set k v now = some { c with m := mapInsert c.m k ⟨v, now + c.ttl⟩,
                                  keys := c.keys ++ [k] } := by
  unfold Cache.Set
  rw [hl]
  simp only [Option.isSome_none, Bool.false_eq_true, if_false]
  rw [if_neg (not_le.mpr hlen)]

theorem Set_absent_full (c : Cache α) (k : String) (v : α) (now : Int)
    (oldest : String) (rest : List String)
    (hl : mapLookup c.m k = none) (hlen : (c.m.length : Int) ≥ c.size)
    (hk : c.keys = oldest :: rest) :
    c.Set k v now = some { c with
      m := mapInsert (mapErase c.m oldest) k ⟨v, now + c.ttl⟩,
      keys := rest ++ [k] } := by
  unfold Cache.Set
  rw [hl]
  simp only [Option.isSome_none, Bool.false_eq_true, if_false]
  rw [if_pos hlen, hk]

theorem Set_absent_full_empty (c : Cache α) (k : String) (v : α) (now : Int)
    (hl : mapLookup c.m k = none) (hlen : (c.m.length : Int) ≥ c.size)
    (hk : c.keys = []) : c.Set k v now = none := by
  unfold Cache.Set
  rw [hl]
  simp only [Option.isSome_none, Bool.false_eq_true, if_false]
  rw [if_pos hlen, hk]

theorem Get_absent (c : Cache α) (k : String) (now : Int)
    (hl : mapLookup c.m k = none) : c.Get k now = (none, false, c) := by
  unfold Cache.Get
  rw [hl]

theorem Get_expired (c : Cache α) (k : String) (now : Int) (e : Entry α)
    (hl : mapLookup c.m k = some e) (hexp : now - e.expiration > 0) :
    c.Get k now = (none, false,
      { c with m := mapErase c.m k, keys := removeKey c.keys k }) := by
  simp only [Cache.Get, hl]
  rw [if_pos hexp]

theorem Get_live (c : Cache α) (k : String) (now : Int) (e : Entry α)
    (hl : mapLookup c.m k = some e) (hexp : ¬ now - e.expiration > 0) :
    c.Get k now = (some e.value, true, c) := by
  simp only [Cache.Get, hl]
  rw [if_neg hexp]

/-! ### Preservation of well-formedness -/

theorem evict_map_fst (c : Cache α) (oldest : String) (rest : List String)
    (hkeys : c.keys = c.m.map Prod.fst) (hnd : c.keys.Nodup)
    (hk : c.keys = oldest :: rest) :
    (mapErase c.m oldest).map Prod.fst = rest := by
  rw [mapErase_map_fst, ← hkeys, hk]
  rw [List.filter_cons_of_neg (by simp)]
  rw [hk] at hnd
  exact filter_ne_of_not_mem rest oldest (List.nodup_cons.mp hnd).1

theorem WF_Set (c : Cache α) (h : WF c) (k : String) (v : α) (now : Int) :
    ∃ c2, c.Set k v now = some c2 ∧ WF c2 := by
  obtain ⟨hpos, hkeys, hnd, hlen⟩ := h
  rcases hl : mapLookup c.m k with _ | e0
  · have hkm : k ∉ c.m.map Prod.fst := (mapLookup_eq_none_iff c.m k).mp hl
    by_cases hfull : (c.m.length : Int) ≥ c.size
    · rcases hk : c.keys with _ | ⟨oldest, rest⟩
      · exfalso
        rw [hk] at hkeys
        have hm0 : c.m = [] := List.map_eq_nil_iff.mp hkeys.symm
        rw [hm0] at hfull
        simp only [List.length_nil, Int.ofNat_zero, ge_iff_le] at hfull
        omega
      · refine ⟨_, Set_absent_full c k v now oldest rest hl hfull hk, ?_⟩
        have hnd2 : (oldest :: rest).Nodup := hk ▸ hnd
        have herase : (mapErase c.m oldest).map Prod.fst = rest :=
          evict_map_fst c oldest rest hkeys hnd hk
        have hkrest : k ∉ rest := by
          intro hmem
          exact hkm (hkeys ▸ hk ▸ List.mem_cons_of_mem oldest hmem)
        have hkerase : k ∉ (mapErase c.m oldest).map Prod.fst := herase ▸ hkrest
        have hins : mapInsert (mapErase c.m oldest) k ⟨v, now + c.ttl⟩ =
            mapErase c.m oldest ++ [(k, ⟨v, now + c.ttl⟩)] :=
          mapInsert_of_not_mem _ k _ hkerase
        have heraselen : (mapErase c.m oldest).length = rest.length := by
          have h2 := congrArg List.length herase
          simpa using h2
        have hmlen : rest.length + 1 = c.m.length := by
          have h2 := congrArg List.length hkeys
          rw [hk] at h2
          simpa using h2
        refine ⟨hpos, ?_, ?_, ?_⟩
        · simp only [hins, List.map_append, herase, List.map_cons, List.map_nil]
        · simp only []
          refine List.Nodup.append ((List.nodup_cons.mp hnd2).2) (List.nodup_singleton k) ?_
          intro a ha hb
          rw [List.mem_singleton.mp hb] at ha
          exact hkrest ha
        · simp only [hins, List.length_append, heraselen, List.length_singleton]
          rw [hmlen]
          exact hlen
    · refine ⟨_, Set_absent_notfull c k v now hl (not_le.mp hfull), ?_⟩
      have hins : mapInsert c.m k ⟨v, now + c.ttl⟩ = c.m ++ [(k, ⟨v, now + c.ttl⟩)] :=
        mapInsert_of_not_mem _ k _ hkm
      refine ⟨hpos, ?_, ?_, ?_⟩
      · simp only [hins, List.map_append, ← hkeys, List.map_cons, List.map_nil]
      · simp only []
        refine List.Nodup.append hnd (List.nodup_singleton k) ?_
        intro a ha hb
        rw [List.mem_singleton.mp hb] at ha
        exact (hkeys ▸ hkm) ha
      · simp only [hins, List.length_append, List.length_singleton]
        push_cast
        omega
  · refine ⟨_, Set_present c k v now e0 hl, ?_⟩
    have hkm : k ∈ c.m.map Prod.fst := by
      have h2 : (mapLookup c.m k).isSome = true := by rw [hl]; rfl
      exact (mapLookup_isSome_iff c.m k).mp h2
    refine ⟨hpos, ?_, hnd, ?_⟩
    · simp only [mapInsert_map_fst_of_mem c.m k _ hkm, hkeys]
    · simp only [mapInsert_length_of_mem c.m k _ hkm]
      exact hlen

theorem WF_Get (c : Cache α) (h : WF c) (k : String) (now : Int) :
    WF (c.Get k now).2.2 := by
  obtain ⟨hpos, hkeys, hnd, hlen⟩ := h
  rcases hl : mapLookup c.m k with _ | e
  · rw [Get_absent c k now hl]
    exact ⟨hpos, hkeys, hnd, hlen⟩
  · by_cases hexp : now - e.expiration > 0
    · rw [Get_expired c k now e hl hexp]
      refine ⟨hpos, ?_, ?_, ?_⟩
      · simp only [mapErase_map_fst, ← hkeys, removeKey_eq_filter c.keys k hnd]
      · simp only [removeKey_eq_filter c.keys k hnd]
        exact List.Nodup.filter _ hnd
      · simp only []
        calc ((mapErase c.m k).length : Int) ≤ (c.m.length : Int) := by
              exact_mod_cast mapErase_length_le c.m k
          _ ≤ c.size := hlen
    · rw [Get_live c k now e hl hexp]
      exact ⟨hpos, hkeys, hnd, hlen⟩

theorem WF_runOp (c : Cache α) (h : WF c) (op : Op α) :
    ∃ c2, c.runOp op = some c2 ∧ WF c2 := by
  cases op with
  | set k v now => exact WF_Set c h k v now
  | get k now => exact ⟨_, rfl, WF_Get c h k now⟩
  | keys => exact ⟨c, rfl, h⟩

theorem WF_runOps (c : Cache α) (h : WF c) (ops : List (Op α)) :
    ∃ c2, c.runOps ops = some c2 ∧ WF c2 := by
  induction ops generalizing c with
  | nil => exact ⟨c, rfl, h⟩
  | cons op rest ih =>
    obtain ⟨c1, hc1, hwf1⟩ := WF_runOp c h op
    obtain ⟨c2, hc2, hwf2⟩ := ih c1 hwf1
    refine ⟨c2, ?_, hwf2⟩
    unfold Cache.runOps
    rw [hc1]
    exact hc2

/-! ### Construction and frame lemmas -/

theorem New_pos (size ttl : Int) (h1 : 0 < size) (h2 : 0 < ttl) :
    New α size ttl = .ok { size := size, ttl := ttl, m := [], keys := [] } := by
  unfold New
  rw [if_neg (not_le.mpr h1), if_neg (not_le.mpr h2)]

theorem WF_of_New (size ttl : Int) (c : Cache α) (h : New α size ttl = .ok c) :
    WF c ∧ c.size = size ∧ c.ttl = ttl ∧ c.m = [] ∧ c.keys = [] := by
  unfold New at h
  by_cases h1 : size ≤ 0
  · rw [if_pos h1] at h
    exact Except.noConfusion h
  · rw [if_neg h1] at h
    by_cases h2 : ttl ≤ 0
    · rw [if_pos h2] at h
      exact Except.noConfusion h
    · rw [if_neg h2] at h
      cases Except.ok.inj h
      refine ⟨⟨not_le.mp h1, rfl, List.nodup_nil, ?_⟩, rfl, rfl, rfl, rfl⟩
      simpa using (not_le.mp h1).le

theorem Set_size_ttl (c : Cache α) (k : String) (v : α) (now : Int) (c2 : Cache α)
    (h : c.Set k v now = some c2) : c2.size = c.size ∧ c2.ttl = c.ttl := by
  unfold Cache.Set at h
  by_cases h1 : (mapLookup c.m k).isSome = true
  · rw [if_pos h1] at h
    cases Option.some.inj h
    exact ⟨rfl, rfl⟩
  · rw [if_neg h1] at h
    by_cases h2 : (c.m.length : Int) ≥ c.size
    · rw [if_pos h2] at h
      rcases hk : c.keys with _ | ⟨oldest, rest⟩
      · rw [hk] at h
        exact Option.noConfusion h
      · rw [hk] at h
        cases Option.some.inj h
        exact ⟨rfl, rfl⟩
    · rw [if_neg h2] at h
      cases Option.some.inj h
      exact ⟨rfl, rfl⟩

theorem Get_size_ttl (c : Cache α) (k : String) (now : Int) :
    (c.Get k now).2.2.size = c.size ∧ (c.Get k now).2.2.ttl = c.ttl := by
  rcases hl : mapLookup c.m k with _ | e
  · rw [Get_absent c k now hl]
    exact ⟨rfl, rfl⟩
  · by_cases hexp : now - e.expiration > 0
    · rw [Get_expired c k now e hl hexp]
      exact ⟨rfl, rfl⟩
    · rw [Get_live c k now e hl hexp]
      exact ⟨rfl, rfl⟩

theorem runOp_size_ttl (c : Cache α) (op : Op α) (c2 : Cache α)
    (h : c.runOp op = some c2) : c2.size = c.size ∧ c2.ttl = c.ttl := by
  cases op with
  | set k v now => exact Set_size_ttl c k v now c2 h
  | get k now =>
    cases Option.some.inj h
    exact Get_size_ttl c k now
  | keys =>
    cases Option.some.inj h
    exact ⟨rfl, rfl⟩

theorem runOps_size_ttl (c : Cache α) (ops : List (Op α)) (c2 : Cache α)
    (h : c.runOps ops = some c2) : c2.size = c.size ∧ c2.ttl = c.ttl := by
  induction ops generalizing c with
  | nil =>
    cases Option.some.inj h
    exact ⟨rfl, rfl⟩
  | cons op rest ih =>
    unfold Cache.runOps at h
    rcases h1 : c.runOp op with _ | c1
    · rw [h1] at h
      exact Option.noConfusion h
    · rw [h1] at h
      obtain ⟨hs1, ht1⟩ := runOp_size_ttl c op c1 h1
      obtain ⟨hs2, ht2⟩ := ih c1 h
      exact ⟨hs2.trans hs1, ht2.trans ht1⟩

theorem Keys_eq_keys (c : Cache α) (h : WF c) : c.Keys = c.keys := by
  obtain ⟨-, hkeys, -, -⟩ := h
  unfold Cache.Keys
  refine List.filter_eq_self.mpr ?_
  intro k hk
  rw [mapLookup_isSome_iff]
  rw [hkeys] at hk
  exact hk

/-! ### Claim theorems -/

/-- C1: for every cache constructed with positive capacity and ttl (a
successful `New`), and every completed sequence of `Set`/`Get`/`Keys`
operations, the store holds at most `capacity` entries after each operation
completes. -/
theorem C1_store_le_capacity (α : Type) (size ttl : Int) (c0 : Cache α)
    (hnew : New α size ttl = .ok c0) (ops : List (Op α)) (c : Cache α)
    (hrun : c0.runOps ops = some c) : (c.m.length : Int) ≤ size := by
  obtain ⟨hwf0, hsize, -, -, -⟩ := WF_of_New size ttl c0 hnew
  have hs := (runOps_size_ttl c0 ops c hrun).1
  obtain ⟨c2, hc2, hwf2⟩ := WF_runOps c0 hwf0 ops
  rw [hrun] at hc2
  cases Option.some.inj hc2
  calc (c.m.length : Int) ≤ c.size := hwf2.2.2.2
    _ = size := by rw [hs, hsize]

/-- Witness for C1 at capacity 1, ttl 1, two inserts (the second evicts). -/
theorem C1_witness :
    New Nat 1 1 = .ok ⟨1, 1, [], []⟩ ∧
    (⟨1, 1, [], []⟩ : Cache Nat).runOps [.set "a" 0 0, .set "b" 1 0] =
      some ⟨1, 1, [("b", ⟨1, 1⟩)], ["b"]⟩ ∧
    (((⟨1, 1, [("b", ⟨1, 1⟩)], ["b"]⟩ : Cache Nat).m.length : Int) ≤ 1) :=
  ⟨by decide, by decide,
    C1_store_le_capacity Nat 1 1 ⟨1, 1, [], []⟩ (by decide)
      [.set "a" 0 0, .set "b" 1 0] ⟨1, 1, [("b", ⟨1, 1⟩)], ["b"]⟩ (by decide)⟩

/-- C5: construction fails with the invalid-capacity error whenever
capacity ≤ 0, fails with the invalid-ttl error whenever capacity > 0 and
ttl ≤ 0, and for positive capacity and ttl succeeds with an empty store and
an empty insertion-order ledger. -/
theorem C5_construction (α : Type) (size ttl : Int) :
    (size ≤ 0 → New α size ttl = .error invalidCapacity) ∧
    (0 < size → ttl ≤ 0 → New α size ttl = .error invalidTTL) ∧
    (0 < size → 0 < ttl →
      New α size ttl = .ok { size := size, ttl := ttl, m := [], keys := [] }) := by
  refine ⟨?_, ?_, ?_⟩
  · intro h
    unfold New
    rw [if_pos h]
  · intro h1 h2
    unfold New
    rw [if_neg (not_le.mpr h1), if_pos h2]
  · intro h1 h2
    exact New_pos size ttl h1 h2

/-- Witness for C5 at capacity 0 (and negative ttl), ttl 0, and a valid pair. -/
theorem C5_witness :
    New Nat 0 5 = .error invalidCapacity ∧
    New Nat 3 (-2) = .error invalidTTL ∧
    New Nat 3 7 = .ok ⟨3, 7, [], []⟩ :=
  ⟨(C5_construction Nat 0 5).1 (by decide),
   (C5_construction Nat 3 (-2)).2.1 (by decide) (by decide),
   (C5_construction Nat 3 7).2.2 (by decide) (by decide)⟩

/-- C7: reading a present, unexpired key returns the stored value and leaves
the store and the ledger exactly unchanged; an immediately repeated read
returns the same value again without evicting anything. -/
theorem C7_idempotent_read (α : Type) (c : Cache α) (k : String) (now : Int)
    (e : Entry α) (hl : mapLookup c.m k = some e) (hlive : now < e.expiration) :
    c.Get k now = (some e.value, true, c) ∧
    (c.Get k now).2.2.Get k now = (some e.value, true, c) := by
  have hexp : ¬ now - e.expiration > 0 := by omega
  have h1 := Get_live c k now e hl hexp
  refine ⟨h1, ?_⟩
  rw [h1]
  exact h1

/-- Witness for C7 on a one-entry cache read before its expiration. -/
theorem C7_witness :
    mapLookup (⟨1, 5, [("a", ⟨3, 5⟩)], ["a"]⟩ : Cache Nat).m "a" = some ⟨3, 5⟩ ∧
    (4 : Int) < 5 ∧
    (⟨1, 5, [("a", ⟨3, 5⟩)], ["a"]⟩ : Cache Nat).Get "a" 4 =
      (some 3, true, ⟨1, 5, [("a", ⟨3, 5⟩)], ["a"]⟩) :=
  ⟨by decide, by decide,
    (C7_idempotent_read Nat ⟨1, 5, [("a", ⟨3, 5⟩)], ["a"]⟩ "a" 4 ⟨3, 5⟩
      (by decide) (by decide)).1⟩

/-- C8: on every state reachable from a successfully constructed cache, `Set`
completes without fault (never `none`), and the ledger is non-empty whenever
the store holds at least `capacity` entries, so the eviction branch's head
access is in bounds. -/
theorem C8_set_total (α : Type) (size ttl : Int) (c0 : Cache α)
    (hnew : New α size ttl = .ok c0) (ops : List (Op α)) (c : Cache α)
    (hrun : c0.runOps ops = some c) :
    (∀ k v now, (c.Set k v now).isSome = true) ∧
    ((c.m.length : Int) ≥ c.size → c.keys ≠ []) := by
  obtain ⟨hwf0, -, -, -, -⟩ := WF_of_New size ttl c0 hnew
  obtain ⟨c2, hc2, hwf2⟩ := WF_runOps c0 hwf0 ops
  rw [hrun] at hc2
  cases Option.some.inj hc2
  constructor
  · intro k v now
    obtain ⟨c3, hc3, -⟩ := WF_Set c hwf2 k v now
    rw [hc3]
    rfl
  · intro hfull hkeys
    obtain ⟨hpos, hk, -, hlen⟩ := hwf2
    rw [hkeys] at hk
    have hm0 : c.m = [] := List.map_eq_nil_iff.mp hk.symm
    rw [hm0] at hfull
    simp only [List.length_nil, Nat.cast_zero, ge_iff_le] at hfull
    omega

/-- Witness for C8 on the freshly constructed cache (empty operation list). -/
theorem C8_witness :
    New Nat 1 1 = .ok ⟨1, 1, [], []⟩ ∧
    (⟨1, 1, [], []⟩ : Cache Nat).runOps [] = some ⟨1, 1, [], []⟩ ∧
    ((⟨1, 1, [], []⟩ : Cache Nat).Set "a" 0 0).isSome = true :=
  ⟨by decide, by decide,
    (C8_set_total Nat 1 1 ⟨1, 1, [], []⟩ (by decide) [] ⟨1, 1, [], []⟩
      (by decide)).1 "a" 0 0⟩

/-- C9: on every reachable state the insertion-order ledger is exactly the
store's key sequence — each store key occurs exactly once and no other key
occurs — and `Keys` returns the entire ledger unfiltered. -/
theorem C9_ledger_invariant (α : Type) (size ttl : Int) (c0 : Cache α)
    (hnew : New α size ttl = .ok c0) (ops : List (Op α)) (c : Cache α)
    (hrun : c0.runOps ops = some c) :
    c.keys = c.m.map Prod.fst ∧ c.keys.Nodup ∧ c.Keys = c.keys := by
  obtain ⟨hwf0, -, -, -, -⟩ := WF_of_New size ttl c0 hnew
  obtain ⟨c2, hc2, hwf2⟩ := WF_runOps c0 hwf0 ops
  rw [hrun] at hc2
  cases Option.some.inj hc2
  exact ⟨hwf2.2.1, hwf2.2.2.1, Keys_eq_keys c hwf2⟩

/-- Witness for C9 after an insert, an overflow-free insert and an expiring
read. -/
theorem C9_witness :
    New Nat 2 1 = .ok ⟨2, 1, [], []⟩ ∧
    (⟨2, 1, [], []⟩ : Cache Nat).runOps [.set "a" 0 0, .set "b" 1 0, .get "a" 5] =
      some ⟨2, 1, [("b", ⟨1, 1⟩)], ["b"]⟩ ∧
    (⟨2, 1, [("b", ⟨1, 1⟩)], ["b"]⟩ : Cache Nat).keys =
      (⟨2, 1, [("b", ⟨1, 1⟩)], ["b"]⟩ : Cache Nat).m.map Prod.fst :=
  ⟨by decide, by decide,
    (C9_ledger_invariant Nat 2 1 ⟨2, 1, [], []⟩ (by decide)
      [.set "a" 0 0, .set "b" 1 0, .get "a" 5]
      ⟨2, 1, [("b", ⟨1, 1⟩)], ["b"]⟩ (by decide)).1⟩

/-- C2: on a well-formed state where `k` is absent and the store holds exactly
`capacity` entries, `Set k v` removes the key at the head of the ledger (the
oldest inserted key, with no expiration check) from both the store and the
ledger, inserts `k` with expiration `now + ttl`, and appends `k` at the tail;
and with capacity 5, inserting k0..k9 in order leaves exactly k5..k9
retrievable. -/
theorem C2_capacity_eviction (α : Type) :
    (∀ (c : Cache α) (k : String) (v : α) (now : Int), WF c →
      mapLookup c.m k = none → (c.m.length : Int) = c.size →
      ∃ c2 oldest rest, c.keys = oldest :: rest ∧ c.Set k v now = some c2 ∧
        mapLookup c2.m oldest = none ∧ oldest ∉ c2.keys ∧
        mapLookup c2.m k = some ⟨v, now + c.ttl⟩ ∧ c2.keys = rest ++ [k] ∧
        (∀ j, j ≠ oldest → j ≠ k → mapLookup c2.m j = mapLookup c.m j)) ∧
    ((New Nat 5 100).toOption.bind (fun c0 =>
        c0.runOps ((List.range 10).map (fun i => Op.set ("k" ++ toString i) i 0)))).map
      (fun c => (c.Keys, (List.range 10).map (fun i => (c.Get ("k" ++ toString i) 0).2.1)))
      = some (["k5", "k6", "k7", "k8", "k9"],
          [false, false, false, false, false, true, true, true, true, true]) := by
  constructor
  · intro c k v now hwf hl heq
    obtain ⟨hpos, hkeys, hnd, hlen⟩ := hwf
    have hfull : (c.m.length : Int) ≥ c.size := heq.ge
    have hkm : k ∉ c.m.map Prod.fst := (mapLookup_eq_none_iff c.m k).mp hl
    have hknotkeys : k ∉ c.keys := by rw [hkeys]; exact hkm
    rcases hk : c.keys with _ | ⟨oldest, rest⟩
    · exfalso
      rw [hk] at hkeys
      have hm0 : c.m = [] := List.map_eq_nil_iff.mp hkeys.symm
      rw [hm0] at heq
      simp only [List.length_nil, Nat.cast_zero] at heq
      omega
    · have hok : oldest ≠ k := by
        intro hh
        exact hknotkeys (hh ▸ hk ▸ List.mem_cons_self oldest rest)
      have hkrest : k ∉ rest := fun hmem =>
        hknotkeys (hk ▸ List.mem_cons_of_mem oldest hmem)
      have herase : (mapErase c.m oldest).map Prod.fst = rest :=
        evict_map_fst c oldest rest hkeys hnd hk
      refine ⟨_, oldest, rest, rfl, Set_absent_full c k v now oldest rest hl hfull hk,
        ?_, ?_, ?_, rfl, ?_⟩
      · rw [mapLookup_mapInsert_ne _ k oldest _ hok,
          mapLookup_mapErase_self]
      · simp only [List.mem_append, List.mem_singleton, not_or]
        have hndk : (oldest :: rest).Nodup := hk ▸ hnd
        exact ⟨(List.nodup_cons.mp hndk).1, hok⟩
      · exact mapLookup_mapInsert_self _ k _
      · intro j hjo hjk
        rw [mapLookup_mapInsert_ne _ k j _ hjk, mapLookup_mapErase_ne _ oldest j hjo]
  · decide

/-- Witness for C2's general part on a full two-entry cache. -/
theorem C2_witness :
    WF (⟨2, 9, [("a", ⟨1, 9⟩), ("b", ⟨2, 9⟩)], ["a", "b"]⟩ : Cache Nat) ∧
    mapLookup (⟨2, 9, [("a", ⟨1, 9⟩), ("b", ⟨2, 9⟩)], ["a", "b"]⟩ : Cache Nat).m "c" = none ∧
    (((⟨2, 9, [("a", ⟨1, 9⟩), ("b", ⟨2, 9⟩)], ["a", "b"]⟩ : Cache Nat).m.length : Int) = 2) ∧
    (∃ c2 oldest rest,
      (⟨2, 9, [("a", ⟨1, 9⟩), ("b", ⟨2, 9⟩)], ["a", "b"]⟩ : Cache Nat).keys = oldest :: rest ∧
      (⟨2, 9, [("a", ⟨1, 9⟩), ("b", ⟨2, 9⟩)], ["a", "b"]⟩ : Cache Nat).Set "c" 3 0 = some c2 ∧
      mapLookup c2.m oldest = none ∧ oldest ∉ c2.keys ∧
      mapLookup c2.m "c" = some ⟨3, 0 + 9⟩ ∧ c2.keys = rest ++ ["c"] ∧
      (∀ j, j ≠ oldest → j ≠ "c" → mapLookup c2.m j =
        mapLookup (⟨2, 9, [("a", ⟨1, 9⟩), ("b", ⟨2, 9⟩)], ["a", "b"]⟩ : Cache Nat).m j)) :=
  ⟨by decide, by decide, by decide,
    (C2_capacity_eviction Nat).1 ⟨2, 9, [("a", ⟨1, 9⟩), ("b", ⟨2, 9⟩)], ["a", "b"]⟩
      "c" 3 0 (by decide) (by decide) (by decide)⟩

/-- C3: when `k` is already present (expired or not), `Set k v` overwrites the
value, resets the expiration to `now + ttl`, and leaves the ledger — hence
`k`'s eviction position — unchanged; and with capacity 2, after
Set a, Set b, Set a (refresh), Set c, key "a" is the one evicted, not "b". -/
theorem C3_refresh_no_reorder (α : Type) :
    (∀ (c : Cache α) (k : String) (v : α) (now : Int) (e0 : Entry α),
      mapLookup c.m k = some e0 →
      ∃ c2, c.Set k v now = some c2 ∧ c2.keys = c.keys ∧
        mapLookup c2.m k = some ⟨v, now + c.ttl⟩ ∧
        (∀ j, j ≠ k → mapLookup c2.m j = mapLookup c.m j) ∧
        c2.size = c.size ∧ c2.ttl = c.ttl) ∧
    ((New Nat 2 100).toOption.bind (fun c0 =>
        c0.runOps [.set "a" 1 0, .set "b" 2 0, .set "a" 99 0, .set "c" 3 0])).map
      (fun c => ((c.Get "a" 0).2.1, (c.Get "b" 0).2.1, c.keys))
      = some (false, true, ["b", "c"]) := by
  constructor
  · intro c k v now e0 hl
    refine ⟨_, Set_present c k v now e0 hl, rfl, ?_, ?_, rfl, rfl⟩
    · exact mapLookup_mapInsert_self c.m k _
    · intro j hjk
      exact mapLookup_mapInsert_ne c.m k j _ hjk
  · decide

/-- Witness for C3's general part: refreshing the older of two keys. -/
theorem C3_witness :
    mapLookup (⟨2, 9, [("a", ⟨1, 9⟩), ("b", ⟨2, 9⟩)], ["a", "b"]⟩ : Cache Nat).m "a" =
      some ⟨1, 9⟩ ∧
    (∃ c2,
      (⟨2, 9, [("a", ⟨1, 9⟩), ("b", ⟨2, 9⟩)], ["a", "b"]⟩ : Cache Nat).Set "a" 50 4 = some c2 ∧
      c2.keys = (⟨2, 9, [("a", ⟨1, 9⟩), ("b", ⟨2, 9⟩)], ["a", "b"]⟩ : Cache Nat).keys ∧
      mapLookup c2.m "a" = some ⟨50, 4 + 9⟩ ∧
      (∀ j, j ≠ "a" → mapLookup c2.m j =
        mapLookup (⟨2, 9, [("a", ⟨1, 9⟩), ("b", ⟨2, 9⟩)], ["a", "b"]⟩ : Cache Nat).m j) ∧
      c2.size = 2 ∧ c2.ttl = 9) :=
  ⟨by decide,
    (C3_refresh_no_reorder Nat).1 ⟨2, 9, [("a", ⟨1, 9⟩), ("b", ⟨2, 9⟩)], ["a", "b"]⟩
      "a" 50 4 ⟨1, 9⟩ (by decide)⟩

/-- A reachable one-entry cache whose single entry expires exactly at
instant 10 (capacity 1, ttl 10, inserted at instant 0). -/
def boundaryCache : Cache Nat := ⟨1, 10, [("a", ⟨0, 10⟩)], ["a"]⟩

/-- C4 counterexample: the claim says a present entry with now ≥ expiresAt is
removed and reported not found, but at now exactly equal to expiresAt the code
(`time.Since(expiration) > 0` is strict) returns the value with found = true
and changes nothing. -/
theorem C4_counterexample :
    New Nat 1 10 = .ok ⟨1, 10, [], []⟩ ∧
    (⟨1, 10, [], []⟩ : Cache Nat).Set "a" 0 0 = some boundaryCache ∧
    mapLookup boundaryCache.m "a" = some ⟨0, 10⟩ ∧
    (10 : Int) ≥ (10 : Int) ∧
    boundaryCache.Get "a" 10 = (some 0, true, boundaryCache) := by
  refine ⟨by decide, by decide, by decide, le_refl 10, by decide⟩

/-- C4 (amended): absent key — `Get` returns not-found and changes nothing;
present key with now strictly greater than expiresAt — `Get` removes the entry
from the store and the key from the ledger and returns not-found; present key
with now ≤ expiresAt — `Get` returns the stored value with found = true. -/
theorem C4_get_cases (α : Type) (c : Cache α) (k : String) (now : Int) (hwf : WF c) :
    (mapLookup c.m k = none → c.Get k now = (none, false, c)) ∧
    (∀ e, mapLookup c.m k = some e → now > e.expiration →
      (c.Get k now).1 = none ∧ (c.Get k now).2.1 = false ∧
      mapLookup (c.Get k now).2.2.m k = none ∧ k ∉ (c.Get k now).2.2.keys ∧
      (∀ j, j ≠ k → mapLookup (c.Get k now).2.2.m j = mapLookup c.m j ∧
        (j ∈ (c.Get k now).2.2.keys ↔ j ∈ c.keys))) ∧
    (∀ e, mapLookup c.m k = some e → now ≤ e.expiration →
      c.Get k now = (some e.value, true, c)) := by
  obtain ⟨-, -, hnd, -⟩ := hwf
  refine ⟨fun hl => Get_absent c k now hl, ?_, ?_⟩
  · intro e hl hgt
    have hexp : now - e.expiration > 0 := by omega
    rw [Get_expired c k now e hl hexp]
    refine ⟨rfl, rfl, mapLookup_mapErase_self c.m k, ?_, ?_⟩
    · simp only [removeKey_eq_filter c.keys k hnd]
      simp [List.mem_filter]
    · intro j hjk
      refine ⟨mapLookup_mapErase_ne c.m k j hjk, ?_⟩
      simp only [removeKey_eq_filter c.keys k hnd]
      simp [List.mem_filter, hjk]
  · intro e hl hle
    exact Get_live c k now e hl (by omega)

/-- Witness for C4 (amended) at the exact-expiration boundary: now = expiresAt
is still a hit. -/
theorem C4_witness :
    WF boundaryCache ∧
    mapLookup boundaryCache.m "a" = some ⟨0, 10⟩ ∧
    (10 : Int) ≤ 10 ∧
    boundaryCache.Get "a" 10 = (some 0, true, boundaryCache) :=
  ⟨by decide, by decide, by decide,
    (C4_get_cases Nat boundaryCache "a" 10 (by decide)).2.2 ⟨0, 10⟩
      (by decide) (by decide)⟩

/-- C6: on a well-formed state, `Keys` returns exactly the store's keys in
original insertion order — membership depends only on presence in the store,
never on expiration — and running it leaves the cache unchanged. -/
theorem C6_keys_snapshot (α : Type) (c : Cache α) (hwf : WF c) :
    c.Keys = c.m.map Prod.fst ∧
    (∀ k, k ∈ c.Keys ↔ (mapLookup c.m k).isSome = true) ∧
    c.runOp .keys = some c := by
  have h1 : c.Keys = c.keys := Keys_eq_keys c hwf
  obtain ⟨-, hkeys, -, -⟩ := hwf
  refine ⟨h1.trans hkeys, ?_, rfl⟩
  intro k
  rw [h1, hkeys, mapLookup_isSome_iff]

/-- Witness for C6 on a cache holding one expired and one live entry: both are
listed. -/
theorem C6_witness :
    WF (⟨2, 1, [("a", ⟨0, 1⟩), ("b", ⟨7, 100⟩)], ["a", "b"]⟩ : Cache Nat) ∧
    (⟨2, 1, [("a", ⟨0, 1⟩), ("b", ⟨7, 100⟩)], ["a", "b"]⟩ : Cache Nat).Keys =
      (⟨2, 1, [("a", ⟨0, 1⟩), ("b", ⟨7, 100⟩)], ["a", "b"]⟩ : Cache Nat).m.map Prod.fst :=
  ⟨by decide,
    (C6_keys_snapshot Nat ⟨2, 1, [("a", ⟨0, 1⟩), ("b", ⟨7, 100⟩)], ["a", "b"]⟩
      (by decide)).1⟩

end SyncCache
